import Mathlib

/-!
Shallow embedding of the tbot shell-interaction layer.

Source files modelled here:
  * src/tbot/machine/shell_utils.py  (read_to_prompt, exec_command,
    command_and_retval and their helpers),
  * src/tbot-legacy/machine/machine.py  (Machine.exec, Machine.exec0).

Strings are modelled as lists of characters (`Str`); the byte-decoding step
(`bytes.decode`) is outside the model, so a channel yields already decoded
chunks.  Python-specific operations (str.replace, slicing with negative
indices, str.strip, int(), re.search with a trailing "$") are embedded as
executable Lean functions that follow CPython semantics on the inputs the
program can produce.
-/

deriving instance DecidableEq for Except

namespace Tbot

abbrev Str := List Char

/-! ### Python string primitives -/

/-- Boolean test that the first list is a leading segment of the second. -/
def hasPrefixL : Str → Str → Bool
  | [], _ => true
  | _ :: _, [] => false
  | a :: as, b :: bs => a = b && hasPrefixL as bs

/-- Fuelled worker for `pyReplace`.  The fuel only serves to make the
recursion structural; `pyReplaceF_stable` shows any fuel of at least the
length of the string gives the same answer. -/
def pyReplaceF : Nat → Str → Str → Str → Str
  | 0, _, _, s => s
  | _ + 1, [], _, s => s
  | fuel + 1, p@(_ :: _), r, s =>
    match s with
    | [] => []
    | c :: rest =>
      if hasPrefixL p (c :: rest) then
        r ++ pyReplaceF fuel p r ((c :: rest).drop p.length)
      else
        c :: pyReplaceF fuel p r rest

/-- Python `s.replace(p, r)` for a non-empty pattern `p`: scan left to
right, replacing non-overlapping occurrences.  (For an empty pattern we
return `s` unchanged; the program only uses the patterns "\r\n" and "\r".) -/
def pyReplace (p r s : Str) : Str := pyReplaceF s.length p r s

/-- Line-ending normalization from `read_to_prompt` (shell_utils.py lines
89-92): `buf_data.replace("\r\n", "\n").replace("\r\n", "\n").replace("\r", "\n")`. -/
def normalizeChunk (s : Str) : Str :=
  pyReplace ['\r'] ['\n'] (pyReplace ['\r', '\n'] ['\n'] (pyReplace ['\r', '\n'] ['\n'] s))

/-! ### Python slicing primitives -/

/-- Python `s[-p:]` for a non-negative count `p`.  Note the CPython quirk:
`-0` is `0`, so `s[-0:]` is the whole string, while for `p ≥ 1` the start
index `len(s) - p` is clamped at `0`. -/
def pyTailSlice (s : Str) (p : Nat) : Str :=
  if p = 0 then s else s.drop (s.length - p)

/-- Python `s[a:-p]` for non-negative `a`, `p`.  For `p = 0` the stop index
`-0` is `0`, so the slice is empty; otherwise the stop index is
`len(s) - p` clamped at `0`. -/
def pySliceToNeg (s : Str) (a p : Nat) : Str :=
  if p = 0 then [] else (s.take (s.length - p)).drop a

/-- The spec-side reading of "remove the first `a` characters from the
front and the last `p` characters from the end". -/
def removeEnds (a p : Nat) (s : Str) : Str :=
  (s.drop a).take (s.length - a - p)

/-! ### A regular-expression engine with CPython `re.search(p + "$")`
semantics.

`read_to_prompt` builds `expression = f"{prompt}$"` and calls
`re.search(expression, buf)`.  In CPython, `$` (without `re.MULTILINE`)
matches at the end of the string *or just before a newline at the end of
the string*.  We embed the prompt pattern as an AST `RE` and model the
search as: some suffix of the buffer — or of the buffer minus a single
trailing newline — matches the pattern in full. -/

inductive RE where
  | fail : RE
  | eps : RE
  | chr : Char → RE
  | cls : Char → Char → RE
  | dot : RE
  | cat : RE → RE → RE
  | alt : RE → RE → RE
  | star : RE → RE
deriving DecidableEq

/-- Words matched by a regular expression.  `dot` is Python `.`, which
does not match a newline. -/
inductive Matches : RE → Str → Prop where
  | eps : Matches .eps []
  | chr (c : Char) : Matches (.chr c) [c]
  | cls (lo hi c : Char) : lo ≤ c → c ≤ hi → Matches (.cls lo hi) [c]
  | dot (c : Char) : c ≠ '\n' → Matches .dot [c]
  | catM {r1 r2 : RE} {w1 w2 : Str} :
      Matches r1 w1 → Matches r2 w2 → Matches (.cat r1 r2) (w1 ++ w2)
  | altL {r1 r2 : RE} {w : Str} : Matches r1 w → Matches (.alt r1 r2) w
  | altR {r1 r2 : RE} {w : Str} : Matches r2 w → Matches (.alt r1 r2) w
  | starNil (r : RE) : Matches (.star r) []
  | starCons {r : RE} {w1 w2 : Str} :
      Matches r w1 → Matches (.star r) w2 → Matches (.star r) (w1 ++ w2)

def nullable : RE → Bool
  | .fail => false
  | .eps => true
  | .chr _ => false
  | .cls _ _ => false
  | .dot => false
  | .cat r1 r2 => nullable r1 && nullable r2
  | .alt r1 r2 => nullable r1 || nullable r2
  | .star _ => true

/-- Brzozowski derivative with respect to one character. -/
def deriv : RE → Char → RE
  | .fail, _ => .fail
  | .eps, _ => .fail
  | .chr c, a => if c = a then .eps else .fail
  | .cls lo hi, a => if lo ≤ a ∧ a ≤ hi then .eps else .fail
  | .dot, a => if a = '\n' then .fail else .eps
  | .cat r1 r2, a =>
    if nullable r1 then .alt (.cat (deriv r1 a) r2) (deriv r2 a)
    else .cat (deriv r1 a) r2
  | .alt r1 r2, a => .alt (deriv r1 a) (deriv r2 a)
  | .star r, a => .cat (deriv r a) (.star r)

/-- Full-string match by iterated derivatives. -/
def rmatch (r : RE) (s : Str) : Bool :=
  nullable (s.foldl deriv r)

/-- CPython `re.search(pattern + "$", buf) is not None`: the pattern must
match some suffix of `buf`, where the final `$` anchor accepts either the
true end of the buffer or the position just before one trailing newline. -/
def pySearchEnd (p : RE) (buf : Str) : Bool :=
  buf.tails.any (fun t => rmatch p t) ||
    (if buf.getLast? = some '\n' then
      buf.dropLast.tails.any (fun t => rmatch p t)
    else false)

/-- The loop condition of `read_to_prompt` (shell_utils.py line 107):
`buf[-len(prompt):] == prompt` in literal mode, `re.search(expression,
buf) is not None` in pattern mode.  In the source the prompt is a single
string interpreted two ways; here the pattern mode additionally receives
the AST `pat` of that string. -/
def promptMatched (prompt : Str) (isPat : Bool) (pat : RE) (buf : Str) : Bool :=
  if isPat then pySearchEnd pat buf
  else decide (pyTailSlice buf prompt.length = prompt)

/-- AST of a literal string, each character matched in sequence. -/
def litRE : Str → RE
  | [] => .eps
  | c :: cs => .cat (.chr c) (litRE cs)

/-- One-or-more repetition, `r+` desugared as `r r*`. -/
def plusRE (r : RE) : RE := .cat r (.star r)

/-- The spec's demonstration pattern `"root@[a-z]+:.*\$ "`. -/
def demoPat : RE :=
  .cat (litRE ['r', 'o', 'o', 't', '@'])
    (.cat (plusRE (.cls 'a' 'z'))
      (.cat (.chr ':')
        (.cat (.star .dot)
          (.cat (.chr '$') (.chr ' ')))))

/-! ### The sink-draining inner loop of `read_to_prompt`

Source (shell_utils.py lines 100-106):
```
while "\n" in buf[last_newline:]:
    line = buf[last_newline:].split("\n")[0]
    if last_newline != 0:
        stdout_handler.print(line)
    last_newline += len(line) + 1
```
Emitted lines are collected in a list instead of being printed. -/

/-- Fuelled worker for `drainLines`; any fuel of at least
`buf.length - ln` gives the same answer (`drainF_stable`). -/
def drainF : Nat → Str → Nat → List Str → Nat × List Str
  | 0, _, ln, em => (ln, em)
  | fuel + 1, buf, ln, em =>
    if '\n' ∈ buf.drop ln then
      let line := (buf.drop ln).takeWhile (fun c => c ≠ '\n')
      drainF fuel buf (ln + line.length + 1) (if ln ≠ 0 then em ++ [line] else em)
    else (ln, em)

def drainLines (buf : Str) (ln : Nat) (em : List Str) : Nat × List Str :=
  drainF buf.length buf ln em

/-! ### Channel model and the read loop -/

/-- One `chan.recv` interaction: the decoded chunk the read returns, and
the value `chan.exit_status_ready()` reports from then on. -/
structure RecvStep where
  data : Str
  exitReady : Bool
deriving DecidableEq

/-- A paramiko channel: the current `exit_status_ready` value, the queued
future reads, and the log of everything sent so far. -/
structure Chan where
  ready : Bool
  steps : List RecvStep
  sent : List Str
deriving DecidableEq

/-- Result of `read_to_prompt`: the returned buffer, the lines emitted to
the stdout handler, and the channel afterwards. -/
structure RtpOut where
  buf : Str
  emitted : List Str
  chanAfter : Chan
deriving DecidableEq

/-- The `while True` read loop of `read_to_prompt` (shell_utils.py lines
80-117), one recursion per `chan.recv`.  `none` models a run that blocks
forever because the trace has no further reads. -/
def rtpLoop (prompt : Str) (isPat : Bool) (pat : RE) (useSink : Bool) (sent : List Str) :
    List RecvStep → Str → Nat → List Str → Option RtpOut
  | [], _, _, _ => none
  | step :: rest, buf, ln, em =>
    let data := normalizeChunk step.data
    let buf1 := buf ++ data
    let st := if useSink then drainLines buf1 ln em else (ln, em)
    if promptMatched prompt isPat pat buf1 then
      let em2 :=
        if useSink ∧ '\n' ∉ buf1.drop st.1 then
          let line := pySliceToNeg buf1 st.1 prompt.length
          if line ≠ [] then st.2 ++ [line] else st.2
        else st.2
      some ⟨buf1, em2, ⟨step.exitReady, rest, sent⟩⟩
    else if data = [] ∧ step.exitReady = true then
      some ⟨buf1, st.2, ⟨step.exitReady, rest, sent⟩⟩
    else
      rtpLoop prompt isPat pat useSink sent rest buf1 st.1 st.2

/-- `read_to_prompt(chan, prompt, stdout_handler, prompt_regex)`. -/
def read_to_prompt (ch : Chan) (prompt : Str) (useSink : Bool) (isPat : Bool)
    (pat : RE) : Option RtpOut :=
  rtpLoop prompt isPat pat useSink ch.sent ch.steps [] 0 []

/-! ### exec_command and command_and_retval -/

inductive ExecErr where
  | invalidCommand : ExecErr
  | invalidChannelState : ExecErr
  | wouldBlock : ExecErr
deriving DecidableEq

structure ExecOut where
  stdout : Str
  emitted : List Str
  chanAfter : Chan
deriving DecidableEq

/-- `exec_command(chan, prompt, command, stdout_handler)` (shell_utils.py
lines 122-154).  An error carries the channel at the moment of the raise,
so "no bytes were sent" is visible as an unchanged `sent` log. -/
def exec_command (ch : Chan) (prompt command : Str) (useSink : Bool) :
    Except (ExecErr × Chan) ExecOut :=
  if '\n' ∈ command then .error (.invalidCommand, ch)
  else if ch.ready = true then .error (.invalidChannelState, ch)
  else
    let ch1 : Chan := ⟨ch.ready, ch.steps, ch.sent ++ [command ++ ['\n']]⟩
    match read_to_prompt ch1 prompt useSink false .eps with
    | none => .error (.wouldBlock, ch1)
    | some o =>
      .ok ⟨pySliceToNeg o.buf (command.length + 1) prompt.length, o.emitted, o.chanAfter⟩

/-- Python whitespace stripped by `str.strip()` (ASCII part). -/
def pyWhitespace (c : Char) : Bool :=
  c = ' ' || c = '\t' || c = '\n' || c = '\r' || c = '\x0b' || c = '\x0c'

def pyStrip (s : Str) : Str :=
  ((s.dropWhile pyWhitespace).reverse.dropWhile pyWhitespace).reverse

def digitsVal (s : Str) : Nat :=
  s.foldl (fun a c => a * 10 + (c.toNat - 48)) 0

/-- Python `int(s)` on an already stripped string: optional sign followed
by at least one decimal digit, else a `ValueError`. -/
def pyInt? (s : Str) : Option Int :=
  match s with
  | '-' :: rest =>
    if !rest.isEmpty && rest.all Char.isDigit then some (-(digitsVal rest : Int)) else none
  | '+' :: rest =>
    if !rest.isEmpty && rest.all Char.isDigit then some (digitsVal rest : Int) else none
  | _ =>
    if !s.isEmpty && s.all Char.isDigit then some (digitsVal s : Int) else none

def echoCmd : Str := "echo $?".toList

inductive CrvErr where
  | execErr : ExecErr → CrvErr
  | intParse : CrvErr
deriving DecidableEq

structure CrvOut where
  retcode : Int
  stdout : Str
  emitted : List Str
  chanAfter : Chan
deriving DecidableEq

/-- `command_and_retval(chan, prompt, command, stdout_handler)`
(shell_utils.py lines 157-182): run the command with the caller's sink,
then `echo $?` with no sink, and parse the stripped second output. -/
def command_and_retval (ch : Chan) (prompt command : Str) (useSink : Bool) :
    Except CrvErr CrvOut :=
  match exec_command ch prompt command useSink with
  | .error e => .error (.execErr e.1)
  | .ok o1 =>
    match exec_command o1.chanAfter prompt echoCmd false with
    | .error e => .error (.execErr e.1)
    | .ok o2 =>
      match pyInt? (pyStrip o2.stdout) with
      | none => .error .intParse
      | some n => .ok ⟨n, o1.stdout, o1.emitted, o2.chanAfter⟩

/-! ### The legacy Machine (src/tbot-legacy/machine/machine.py) -/

/-- A machine: its interactive flag and the abstract `_exec` dispatch
primitive supplied by concrete subclasses. -/
structure Machine where
  interactive : Bool
  pexec : Str → Int × Str

def pyLower (s : Str) : Str := s.map Char.toLower

/-- `Machine.exec` (machine.py lines 55-84).  `response` is the operator's
reply to the interactive `[Y/n]` question; the Boolean in the result
records whether `_exec` was dispatched.  Log-event plumbing is dropped:
it does not affect the returned pair. -/
def Machine.exec (m : Machine) (response command : Str) : (Int × Str) × Bool :=
  if m.interactive = true then
    match pyLower response with
    | c :: _ =>
      if c ≠ 'y' then ((0, []), false)
      else (m.pexec command, true)
    | [] => (m.pexec command, true)
  else (m.pexec command, true)

inductive ExecFail where
  | commandFailed : Str → ExecFail
deriving DecidableEq

/-- `Machine.exec0` (machine.py lines 86-97): delegate to `exec`, assert a
zero exit code, and surface the assertion message on failure. -/
def Machine.exec0 (m : Machine) (response command : Str) : Except ExecFail Str :=
  if (Machine.exec m response command).1.1 = 0 then
    .ok (Machine.exec m response command).1.2
  else
    .error (.commandFailed
      ("Command \"".toList ++ command ++ "\" failed:\n".toList ++
        (Machine.exec m response command).1.2))

/-! ### Specification-side views of the buffer used to state the sink
property: the '\n'-separated segments of a string, its last (unterminated)
segment, and the final flush. -/

/-- Segments of a string separated by '\n' (Python `s.split("\n")`):
always non-empty; all segments except the last were '\n'-terminated. -/
def splitNL : Str → List Str
  | [] => [[]]
  | c :: rest =>
    if c = '\n' then [] :: splitNL rest
    else
      match splitNL rest with
      | [] => [[c]]
      | h :: t => (c :: h) :: t

/-- The content after the last '\n' (the whole string if it has none). -/
def lastSeg (s : Str) : Str := (splitNL s).foldl (fun _ x => x) []

/-- The final flush of `read_to_prompt` on prompt-termination: the
unterminated trailing content with the trailing prompt excluded, emitted
only if non-empty. -/
def flushOf (prompt buf : Str) : List Str :=
  if (lastSeg buf).take ((lastSeg buf).length - prompt.length) ≠ [] then
    [(lastSeg buf).take ((lastSeg buf).length - prompt.length)]
  else []

/-! ### Concrete fixtures used by witnesses and counterexamples -/

/-- Channel for the literal-prompt scenario: echo "ls\n", then the output,
then the prompt "TBOT->". -/
def wChanA : Chan :=
  ⟨false, [⟨"ls\n".toList, false⟩, ⟨"a.txt\nb.txt\n".toList, false⟩,
           ⟨"TBOT->".toList, false⟩], []⟩

/-- Expected `exec_command` result on `wChanA`. -/
def c1Out : ExecOut := ⟨"a.txt\nb.txt\n".toList, [], ⟨false, [], ["ls\n".toList]⟩⟩

/-- Channel whose remote side closes without ever printing a prompt. -/
def cexChan : Chan := ⟨false, [⟨"ls\nabc".toList, false⟩, ⟨[], true⟩], []⟩

/-- Channel for a full `command_and_retval` round trip. -/
def crvChan : Chan :=
  ⟨false, [⟨"ls\n".toList, false⟩, ⟨"out\nTBOT->".toList, false⟩,
           ⟨"echo $?\n0\nTBOT->".toList, false⟩], []⟩

def crvO1 : ExecOut :=
  ⟨"out\n".toList, [], ⟨false, [⟨"echo $?\n0\nTBOT->".toList, false⟩], ["ls\n".toList]⟩⟩

def crvO2 : ExecOut :=
  ⟨"0\n".toList, [], ⟨false, [], ["ls\n".toList, "echo $?\n".toList]⟩⟩

/-- An interactive machine whose dispatch visibly runs. -/
def mDemo : Machine := ⟨true, fun _ => (7, "ran".toList)⟩

/-- A non-interactive machine whose dispatch fails. -/
def mFail : Machine := ⟨false, fun _ => (1, "boom".toList)⟩

/-- Expected `read_to_prompt` result on `wChanA` with a sink. -/
def c7Out : RtpOut :=
  ⟨"ls\na.txt\nb.txt\nTBOT->".toList, ["a.txt".toList, "b.txt".toList],
   ⟨false, [], []⟩⟩

/-- A non-interactive machine whose dispatch succeeds with output. -/
def mOk : Machine := ⟨false, fun _ => (0, "fine".toList)⟩

/-! ## Theorems -/

/-! ### Facts about the fuelled workers -/

theorem pyReplaceF_stable (f1 : Nat) :
    ∀ (f2 : Nat) (p r s : Str), s.length ≤ f1 → s.length ≤ f2 →
      pyReplaceF f1 p r s = pyReplaceF f2 p r s := by
  induction f1 with
  | zero =>
    intro f2 p r s h1 _
    have hs : s = [] := List.eq_nil_of_length_eq_zero (Nat.le_zero.mp h1)
    subst hs
    cases f2 with
    | zero => rfl
    | succ f2 => cases p <;> rfl
  | succ f1 ih =>
    intro f2 p r s h1 h2
    cases p with
    | nil =>
      cases f2 with
      | zero =>
        have hs : s = [] := List.eq_nil_of_length_eq_zero (Nat.le_zero.mp h2)
        subst hs; rfl
      | succ f2 => rfl
    | cons a as =>
      cases s with
      | nil =>
        cases f2 with
        | zero => rfl
        | succ f2 => rfl
      | cons c rest =>
        cases f2 with
        | zero =>
          exact absurd h2 (by simp)
        | succ f2 =>
          simp only [pyReplaceF]
          by_cases hp : hasPrefixL (a :: as) (c :: rest) = true
          · simp only [hp, if_true]
            have hlen : ((c :: rest).drop (a :: as).length).length ≤ f1 := by
              simp only [List.length_drop, List.length_cons] at *
              omega
            have hlen2 : ((c :: rest).drop (a :: as).length).length ≤ f2 := by
              simp only [List.length_drop, List.length_cons] at *
              omega
            rw [ih f2 (a :: as) r _ hlen hlen2]
          · simp only [hp, if_false, Bool.false_eq_true]
            have hlen : rest.length ≤ f1 := by
              simp only [List.length_cons] at h1; omega
            have hlen2 : rest.length ≤ f2 := by
              simp only [List.length_cons] at h2; omega
            rw [ih f2 (a :: as) r rest hlen hlen2]

theorem pyReplace_nil (p r : Str) : pyReplace p r [] = [] := by
  cases p <;> rfl

/-- The equation `pyReplace` satisfies on a cons cell, for a non-empty
pattern.  This is the recurrence of CPython's replace loop. -/
theorem pyReplace_cons (a : Char) (as r : Str) (c : Char) (rest : Str) :
    pyReplace (a :: as) r (c :: rest) =
      if hasPrefixL (a :: as) (c :: rest) then
        r ++ pyReplace (a :: as) r ((c :: rest).drop (a :: as).length)
      else
        c :: pyReplace (a :: as) r rest := by
  show pyReplaceF (c :: rest).length (a :: as) r (c :: rest) = _
  simp only [List.length_cons, pyReplaceF]
  by_cases hp : hasPrefixL (a :: as) (c :: rest) = true
  · simp only [hp, if_true]
    congr 1
    exact pyReplaceF_stable rest.length _ (a :: as) r _
      (by simp only [List.length_drop, List.length_cons]; omega) (Nat.le_refl _)
  · simp only [hp, if_false, Bool.false_eq_true]
    rfl

theorem normalizeChunk_nil : normalizeChunk [] = [] := rfl

/-- Replacing the single character '\r' by '\n' leaves no '\r' behind. -/
theorem cr_not_mem_pyReplace_cr (s : Str) : '\r' ∉ pyReplace ['\r'] ['\n'] s := by
  induction s with
  | nil => rw [pyReplace_nil]; simp
  | cons c rest ih =>
    rw [pyReplace_cons]
    by_cases hc : c = '\r'
    · subst hc
      have hp : hasPrefixL ['\r'] ('\r' :: rest) = true := by
        simp [hasPrefixL]
      simp only [hp, if_true, List.length_cons, List.length_nil, Nat.zero_add,
        List.drop_succ_cons, List.drop_zero]
      intro hmem
      rcases List.mem_append.mp hmem with h | h
      · simp at h
      · exact ih h
    · have hp : hasPrefixL ['\r'] (c :: rest) = false := by
        simp only [hasPrefixL, Bool.and_eq_false_iff, decide_eq_false_iff_not]
        exact Or.inl fun h => hc h.symm
      simp only [hp, if_false, Bool.false_eq_true]
      intro hmem
      rcases List.mem_cons.mp hmem with h | h
      · exact hc h.symm
      · exact ih h

/-- A replace whose pattern starts with '\r' is the identity on '\r'-free
strings. -/
theorem pyReplace_id_of_cr_free (as r : Str) (s : Str) (h : '\r' ∉ s) :
    pyReplace ('\r' :: as) r s = s := by
  induction s with
  | nil => exact pyReplace_nil _ _
  | cons c rest ih =>
    rw [pyReplace_cons]
    have hc : c ≠ '\r' := by
      intro hc; exact h (hc ▸ List.mem_cons_self c rest)
    have hp : hasPrefixL ('\r' :: as) (c :: rest) = false := by
      simp only [hasPrefixL, Bool.and_eq_false_iff, decide_eq_false_iff_not]
      exact Or.inl fun h => hc h.symm
    simp only [hp, if_false, Bool.false_eq_true]
    have hrest : '\r' ∉ rest := fun hm => h (List.mem_cons_of_mem _ hm)
    rw [ih hrest]

theorem cr_not_mem_normalizeChunk (s : Str) : '\r' ∉ normalizeChunk s :=
  cr_not_mem_pyReplace_cr _

theorem normalizeChunk_idem (s : Str) :
    normalizeChunk (normalizeChunk s) = normalizeChunk s := by
  have h := cr_not_mem_normalizeChunk s
  show pyReplace ['\r'] ['\n']
      (pyReplace ['\r', '\n'] ['\n'] (pyReplace ['\r', '\n'] ['\n'] (normalizeChunk s))) =
    normalizeChunk s
  rw [pyReplace_id_of_cr_free ['\n'] ['\n'] _ h,
      pyReplace_id_of_cr_free ['\n'] ['\n'] _ h,
      pyReplace_id_of_cr_free [] ['\n'] _ h]

theorem pySliceToNeg_eq_removeEnds (s : Str) (a p : Nat) (hp : p ≠ 0) :
    pySliceToNeg s a p = removeEnds a p s := by
  unfold pySliceToNeg removeEnds
  rw [if_neg hp, List.drop_take]
  congr 1
  omega

/-! ### Soundness of the derivative matcher -/

theorem nullable_matches : ∀ {r : RE}, nullable r = true → Matches r []
  | .eps, _ => Matches.eps
  | .cat r1 r2, h => by
    simp only [nullable, Bool.and_eq_true] at h
    exact (List.nil_append ([] : Str)) ▸
      Matches.catM (nullable_matches h.1) (nullable_matches h.2)
  | .alt r1 r2, h => by
    simp only [nullable, Bool.or_eq_true] at h
    rcases h with h | h
    · exact Matches.altL (nullable_matches h)
    · exact Matches.altR (nullable_matches h)
  | .star r, _ => Matches.starNil r

theorem deriv_matches :
    ∀ {r : RE} {a : Char} {w : Str}, Matches (deriv r a) w → Matches r (a :: w) := by
  intro r
  induction r with
  | fail => intro a w h; cases h
  | eps => intro a w h; cases h
  | chr c =>
    intro a w h
    simp only [deriv] at h
    by_cases hc : c = a
    · rw [if_pos hc] at h
      cases h
      subst hc
      exact Matches.chr c
    · rw [if_neg hc] at h
      cases h
  | cls lo hi =>
    intro a w h
    simp only [deriv] at h
    by_cases hc : lo ≤ a ∧ a ≤ hi
    · rw [if_pos hc] at h
      cases h
      exact Matches.cls lo hi a hc.1 hc.2
    · rw [if_neg hc] at h
      cases h
  | dot =>
    intro a w h
    simp only [deriv] at h
    by_cases hc : a = '\n'
    · rw [if_pos hc] at h
      cases h
    · rw [if_neg hc] at h
      cases h
      exact Matches.dot a hc
  | cat r1 r2 ih1 ih2 =>
    intro a w h
    simp only [deriv] at h
    by_cases hn : nullable r1 = true
    · rw [if_pos hn] at h
      cases h with
      | altL h1 =>
        cases h1 with
        | catM hm1 hm2 =>
          exact Matches.catM (ih1 hm1) hm2
      | altR h2 =>
        exact (List.nil_append (a :: w)) ▸
          Matches.catM (nullable_matches hn) (ih2 h2)
    · rw [if_neg hn] at h
      cases h with
      | catM hm1 hm2 =>
        exact Matches.catM (ih1 hm1) hm2
  | alt r1 r2 ih1 ih2 =>
    intro a w h
    cases h with
    | altL h1 => exact Matches.altL (ih1 h1)
    | altR h2 => exact Matches.altR (ih2 h2)
  | star r ih =>
    intro a w h
    cases h with
    | catM hm1 hm2 =>
      exact Matches.starCons (ih hm1) hm2

theorem rmatch_matches :
    ∀ (s : Str) (r : RE), rmatch r s = true → Matches r s := by
  intro s
  induction s with
  | nil => intro r h; exact nullable_matches h
  | cons c rest ih =>
    intro r h
    exact deriv_matches (ih (deriv r c) h)

/-! ### Facts about the drain loop -/

theorem takeWhile_length_lt (t : Str) (h : '\n' ∈ t) :
    (t.takeWhile (fun c => c ≠ '\n')).length < t.length := by
  induction t with
  | nil => cases h
  | cons c rest ih =>
    by_cases hc : c = '\n'
    · subst hc
      simp [List.takeWhile]
    · have hr : '\n' ∈ rest := by
        rcases List.mem_cons.mp h with h1 | h1
        · exact absurd h1.symm hc
        · exact h1
      have hd : (decide (c ≠ '\n')) = true := by simp [hc]
      simp only [List.takeWhile, hd, List.length_cons]
      have := ih hr
      omega

theorem drop_eq_nil_of_le_len {s : Str} {n : Nat} (h : s.length ≤ n) :
    s.drop n = [] := by
  simp [List.drop_eq_nil_iff, h]

theorem drainF_stable (f1 : Nat) :
    ∀ (f2 : Nat) (buf : Str) (ln : Nat) (em : List Str),
      buf.length - ln ≤ f1 → buf.length - ln ≤ f2 →
      drainF f1 buf ln em = drainF f2 buf ln em := by
  induction f1 with
  | zero =>
    intro f2 buf ln em h1 _
    have hd : buf.drop ln = [] := drop_eq_nil_of_le_len (by omega)
    cases f2 with
    | zero => rfl
    | succ f2 =>
      simp only [drainF, hd]
      simp
  | succ f1 ih =>
    intro f2 buf ln em h1 h2
    by_cases hnl : '\n' ∈ buf.drop ln
    · have hln : ln < buf.length := by
        by_contra hc
        rw [drop_eq_nil_of_le_len (by omega)] at hnl
        cases hnl
      have hlt := takeWhile_length_lt _ hnl
      rw [List.length_drop] at hlt
      cases f2 with
      | zero => omega
      | succ f2 =>
        simp only [drainF, hnl, if_true]
        exact ih f2 buf _ _ (by omega) (by omega)
    · cases f2 with
      | zero =>
        have : buf.length ≤ ln := by
          by_contra hc
          omega
        simp only [drainF, hnl, if_false]
      | succ f2 =>
        simp only [drainF, hnl, if_false]

/-- The recurrence the drain loop satisfies. -/
theorem drainLines_eq (buf : Str) (ln : Nat) (em : List Str) :
    drainLines buf ln em =
      if '\n' ∈ buf.drop ln then
        drainLines buf (ln + ((buf.drop ln).takeWhile (fun c => c ≠ '\n')).length + 1)
          (if ln ≠ 0 then em ++ [(buf.drop ln).takeWhile (fun c => c ≠ '\n')] else em)
      else (ln, em) := by
  by_cases hnl : '\n' ∈ buf.drop ln
  · rw [if_pos hnl]
    have hln : ln < buf.length := by
      by_contra hc
      rw [drop_eq_nil_of_le_len (by omega)] at hnl
      cases hnl
    have hlt := takeWhile_length_lt _ hnl
    rw [List.length_drop] at hlt
    obtain ⟨n, hn⟩ : ∃ n, buf.length = n + 1 := ⟨buf.length - 1, by omega⟩
    have h1 : drainLines buf ln em =
        drainF n buf (ln + ((buf.drop ln).takeWhile (fun c => c ≠ '\n')).length + 1)
          (if ln ≠ 0 then em ++ [(buf.drop ln).takeWhile (fun c => c ≠ '\n')] else em) := by
      show drainF buf.length buf ln em = _
      rw [hn]
      simp only [drainF, hnl, if_true]
    rw [h1]
    show _ = drainF buf.length buf _ _
    exact drainF_stable n buf.length buf _ _ (by omega) (by omega)
  · rw [if_neg hnl]
    show drainF buf.length buf ln em = (ln, em)
    rcases hbl : buf.length with _ | n
    · rfl
    · simp only [drainF]
      rw [if_neg hnl]

/-! ### Claim C6: line-ending normalization -/

/-- C6: the per-chunk normalization maps every input to a buffer with no
'\r' left (all line-ending variants become '\n'), and it is idempotent:
normalizing twice equals normalizing once. -/
theorem normalization_cr_free_and_idem (s : Str) :
    '\r' ∉ normalizeChunk s ∧ normalizeChunk (normalizeChunk s) = normalizeChunk s :=
  ⟨cr_not_mem_normalizeChunk s, normalizeChunk_idem s⟩

/-! ### Claim C3: commands with embedded newlines -/

/-- C3: a command containing '\n' makes `exec_command` fail with
`InvalidCommand`; the channel in the error is the input channel itself,
before anything was sent, so its `sent` log is unchanged. -/
theorem exec_command_newline_invalid (ch : Chan) (prompt command : Str)
    (useSink : Bool) (h : '\n' ∈ command) :
    exec_command ch prompt command useSink = .error (.invalidCommand, ch) := by
  unfold exec_command
  rw [if_pos h]

/-- Witness for C3 at a concrete command with an embedded newline. -/
theorem exec_command_newline_invalid_w :
    exec_command wChanA "TBOT->".toList ('a' :: '\n' :: ['b']) false =
      .error (.invalidCommand, wChanA) :=
  exec_command_newline_invalid wChanA "TBOT->".toList ('a' :: '\n' :: ['b']) false
    (by decide)

/-! ### Claim C8: remote close without a prompt -/

/-- C8: when a read yields zero bytes and the channel reports completion,
before the prompt has been observed, the read loop returns the buffer
accumulated so far as a normal result, consuming no further reads. -/
theorem rtp_closed_channel (prompt : Str) (isPat : Bool) (pat : RE) (useSink : Bool)
    (sent : List Str) (rest : List RecvStep) (buf : Str) (ln : Nat) (em : List Str)
    (hm : promptMatched prompt isPat pat buf = false) :
    rtpLoop prompt isPat pat useSink sent (⟨[], true⟩ :: rest) buf ln em =
      some ⟨buf, (if useSink then drainLines buf ln em else (ln, em)).2,
            ⟨true, rest, sent⟩⟩ := by
  simp only [rtpLoop, normalizeChunk_nil, List.append_nil, hm]
  simp

/-- Witness for C8: a closed channel yields the partial buffer. -/
theorem rtp_closed_channel_w :
    rtpLoop "TBOT->".toList false .eps false [] [⟨[], true⟩] "partial ou".toList 0 [] =
      some ⟨"partial ou".toList, [], ⟨true, [], []⟩⟩ := by
  have h := rtp_closed_channel "TBOT->".toList false .eps false [] [] "partial ou".toList
    0 [] (by decide)
  simpa using h

/-! ### Claim C4: interactive confirmation -/

/-- C4 as stated is false: in interactive mode an *empty* operator
response does not skip the command.  The guard is
`if inp != "" and inp[0] != "y"`, so on `""` the command is dispatched
(the Boolean records the dispatch) and the result is the dispatch result,
not `(0, "")`. -/
theorem machine_exec_empty_response_cex :
    Machine.exec mDemo [] "ls".toList = ((7, "ran".toList), true) ∧
    Machine.exec mDemo [] "ls".toList ≠ ((0, []), false) :=
  ⟨by decide, by decide⟩

/-- C4 amended: in interactive mode, a *non-empty* response whose first
character does not lower-case to 'y' skips execution, returning `(0, "")`
with no dispatch; an empty response proceeds to dispatch. -/
theorem machine_exec_decline (m : Machine) (command : Str)
    (hi : m.interactive = true) :
    (∀ (c : Char) (cs : Str), Char.toLower c ≠ 'y' →
      Machine.exec m (c :: cs) command = ((0, []), false))
    ∧ Machine.exec m [] command = (m.pexec command, true) := by
  constructor
  · intro c cs hc
    unfold Machine.exec
    rw [if_pos hi]
    show (if Char.toLower c ≠ 'y' then ((0, []), false)
          else (m.pexec command, true)) = _
    rw [if_pos hc]
  · unfold Machine.exec
    rw [if_pos hi]
    rfl

/-- Witness for the amended C4: response "no" skips, empty response runs. -/
theorem machine_exec_decline_w :
    Machine.exec mDemo ('n' :: ['o']) "ls".toList = ((0, []), false) ∧
    Machine.exec mDemo [] "ls".toList = (mDemo.pexec "ls".toList, true) := by
  have h := machine_exec_decline mDemo "ls".toList (by decide)
  exact ⟨h.1 'n' ['o'] (by decide), h.2⟩

/-! ### Claim C9: exec0 -/

/-- C9: `exec0` returns exactly the output of `exec` when the exit code is
zero, and fails if and only if the exit code is non-zero, with a
`CommandFailed` payload containing the command text and the captured
output as substrings. -/
theorem exec0_spec (m : Machine) (response command : Str) :
    ((Machine.exec m response command).1.1 = 0 →
      Machine.exec0 m response command = .ok (Machine.exec m response command).1.2)
    ∧ ((Machine.exec m response command).1.1 ≠ 0 →
      ∃ msg, Machine.exec0 m response command = .error (.commandFailed msg) ∧
        (∃ u v, msg = u ++ command ++ v) ∧
        (∃ u, msg = u ++ (Machine.exec m response command).1.2))
    ∧ ((∃ e, Machine.exec0 m response command = .error e) ↔
      (Machine.exec m response command).1.1 ≠ 0) := by
  unfold Machine.exec0
  by_cases h : (Machine.exec m response command).1.1 = 0
  · rw [if_pos h]
    refine ⟨fun _ => rfl, fun hc => absurd h hc, ?_⟩
    constructor
    · rintro ⟨e, he⟩
      exact absurd he (by simp)
    · intro hc
      exact absurd h hc
  · rw [if_neg h]
    refine ⟨fun hc => absurd hc h, fun _ => ?_, ?_⟩
    · refine ⟨_, rfl,
        ⟨"Command \"".toList,
         "\" failed:\n".toList ++ (Machine.exec m response command).1.2, ?_⟩,
        ⟨"Command \"".toList ++ command ++ "\" failed:\n".toList, ?_⟩⟩
      · simp [List.append_assoc]
      · simp [List.append_assoc]
    · exact ⟨fun _ => h, fun _ => ⟨_, rfl⟩⟩

/-- Witness for C9: a failing dispatch surfaces `CommandFailed` with the
command and output embedded; a succeeding one returns the output. -/
theorem exec0_spec_w :
    (∃ msg, Machine.exec0 mFail [] "badcmd".toList = .error (.commandFailed msg) ∧
      (∃ u v, msg = u ++ "badcmd".toList ++ v) ∧
      (∃ u, msg = u ++ (Machine.exec mFail [] "badcmd".toList).1.2)) ∧
    Machine.exec0 mOk [] "okcmd".toList =
      .ok (Machine.exec mOk [] "okcmd".toList).1.2 :=
  ⟨(exec0_spec mFail [] "badcmd".toList).2.1 (by decide),
   (exec0_spec mOk [] "okcmd".toList).1 (by decide)⟩

/-! ### Claim C1: echo and prompt stripping -/

/-- C1 as universally stated fails for the empty prompt, a consequence of
Python's `-0 == 0`: the slice `[len(command)+1 : -len(prompt)]` becomes
`[3:0]`, the empty string, while "remove the last 0 characters from the
end" keeps the buffer tail.  On a channel that closes after echoing
`"ls\nabc"`, the synchronized buffer is `"ls\nabc"`, so the claim demands
`"abc"` but the code returns `""`. -/
theorem exec_command_empty_prompt_cex :
    exec_command cexChan [] "ls".toList false =
      .ok ⟨[], [], ⟨true, [], ["ls\n".toList]⟩⟩ ∧
    read_to_prompt ⟨cexChan.ready, cexChan.steps, cexChan.sent ++ ["ls".toList ++ ['\n']]⟩
      [] false false .eps =
      some ⟨"ls\nabc".toList, [], ⟨true, [], ["ls\n".toList]⟩⟩ ∧
    removeEnds ("ls".toList.length + 1) ([] : Str).length "ls\nabc".toList =
      "abc".toList ∧
    (⟨[], [], ⟨true, [], ["ls\n".toList]⟩⟩ : ExecOut).stdout ≠ "abc".toList :=
  ⟨by decide, by decide, by decide, by decide⟩

/-- C1 amended: for every command without an embedded newline and every
*non-empty* prompt, a successful `exec_command` returns the synchronized
buffer with the first `len(command)+1` characters removed from the front
and the last `len(prompt)` characters removed from the end. -/
theorem exec_command_strips (ch : Chan) (prompt command : Str) (useSink : Bool)
    (out : ExecOut) (hp : prompt ≠ [])
    (h : exec_command ch prompt command useSink = .ok out) :
    ∃ o : RtpOut,
      read_to_prompt ⟨ch.ready, ch.steps, ch.sent ++ [command ++ ['\n']]⟩ prompt useSink
        false .eps = some o ∧
      out.stdout = removeEnds (command.length + 1) prompt.length o.buf := by
  unfold exec_command at h
  by_cases h1 : '\n' ∈ command
  · rw [if_pos h1] at h
    exact absurd h (by simp)
  · rw [if_neg h1] at h
    by_cases h2 : ch.ready = true
    · rw [if_pos h2] at h
      exact absurd h (by simp)
    · rw [if_neg h2] at h
      simp only [] at h
      cases hr : read_to_prompt ⟨ch.ready, ch.steps, ch.sent ++ [command ++ ['\n']]⟩
          prompt useSink false .eps with
      | none =>
        rw [hr] at h
        exact absurd h (by simp)
      | some o =>
        rw [hr] at h
        refine ⟨o, rfl, ?_⟩
        have h4 : Except.ok (ε := ExecErr × Chan)
            (⟨pySliceToNeg o.buf (command.length + 1) prompt.length,
              o.emitted, o.chanAfter⟩ : ExecOut) = .ok out := h
        injection h4 with h5
        rw [← h5]
        exact pySliceToNeg_eq_removeEnds o.buf _ _
          (fun hc => hp (List.eq_nil_of_length_eq_zero hc))

/-- Witness for the amended C1, on the spec's literal-prompt scenario: the
stripped result is exactly `"a.txt\nb.txt\n"`. -/
theorem exec_command_strips_w :
    (∃ o : RtpOut,
      read_to_prompt ⟨wChanA.ready, wChanA.steps, wChanA.sent ++ ["ls".toList ++ ['\n']]⟩
        "TBOT->".toList false false .eps = some o ∧
      c1Out.stdout = removeEnds ("ls".toList.length + 1) "TBOT->".toList.length o.buf) ∧
    c1Out.stdout = "a.txt\nb.txt\n".toList :=
  ⟨exec_command_strips wChanA "TBOT->".toList "ls".toList false c1Out (by decide)
    (by decide), by decide⟩

/-! ### Claim C5: command_and_retval -/

/-- The read loop never touches the `sent` log it is given. -/
theorem rtpLoop_sent (prompt : Str) (isPat : Bool) (pat : RE) (useSink : Bool)
    (sent : List Str) :
    ∀ (steps : List RecvStep) (buf : Str) (ln : Nat) (em : List Str) (out : RtpOut),
      rtpLoop prompt isPat pat useSink sent steps buf ln em = some out →
      out.chanAfter.sent = sent := by
  intro steps
  induction steps with
  | nil =>
    intro buf ln em out h
    exact absurd h (by simp [rtpLoop])
  | cons step rest ih =>
    intro buf ln em out h
    simp only [rtpLoop] at h
    split at h
    · cases h
      rfl
    · split at h
      · cases h
        rfl
      · exact ih _ _ _ _ h

/-- A successful `exec_command` sends exactly one line: the command
followed by a newline. -/
theorem exec_command_sent (ch : Chan) (prompt command : Str) (useSink : Bool)
    (out : ExecOut) (h : exec_command ch prompt command useSink = .ok out) :
    out.chanAfter.sent = ch.sent ++ [command ++ ['\n']] := by
  unfold exec_command at h
  by_cases h1 : '\n' ∈ command
  · rw [if_pos h1] at h
    exact absurd h (by simp)
  · rw [if_neg h1] at h
    by_cases h2 : ch.ready = true
    · rw [if_pos h2] at h
      exact absurd h (by simp)
    · rw [if_neg h2] at h
      simp only [] at h
      cases hr : read_to_prompt ⟨ch.ready, ch.steps, ch.sent ++ [command ++ ['\n']]⟩
          prompt useSink false .eps with
      | none =>
        rw [hr] at h
        exact absurd h (by simp)
      | some o =>
        rw [hr] at h
        have h4 : Except.ok (ε := ExecErr × Chan)
            (⟨pySliceToNeg o.buf (command.length + 1) prompt.length,
              o.emitted, o.chanAfter⟩ : ExecOut) = .ok out := h
        injection h4 with h5
        rw [← h5]
        exact rtpLoop_sent prompt false .eps useSink _ _ _ _ _ o hr

/-- C5: `command_and_retval` performs exactly two round-trips — the given
command with the caller's sink, then the fixed `echo $?` with no sink —
and returns the parsed exit code paired with the first command's output. -/
theorem command_and_retval_spec (ch : Chan) (prompt command : Str) (useSink : Bool)
    (o1 o2 : ExecOut) (n : Int)
    (h1 : exec_command ch prompt command useSink = .ok o1)
    (h2 : exec_command o1.chanAfter prompt echoCmd false = .ok o2)
    (h3 : pyInt? (pyStrip o2.stdout) = some n) :
    command_and_retval ch prompt command useSink =
      .ok ⟨n, o1.stdout, o1.emitted, o2.chanAfter⟩ ∧
    o2.chanAfter.sent = ch.sent ++ [command ++ ['\n'], echoCmd ++ ['\n']] := by
  constructor
  · simp only [command_and_retval, h1, h2, h3]
  · have e1 := exec_command_sent _ _ _ _ _ h1
    have e2 := exec_command_sent _ _ _ _ _ h2
    rw [e2, e1]
    simp

/-- Witness for C5 on a concrete trace: exit code parsed from
`"0\n"`, output from the first round-trip, and exactly the two sends
`"ls\n"` and `"echo $?\n"` in order. -/
theorem command_and_retval_spec_w :
    command_and_retval crvChan "TBOT->".toList "ls".toList false =
      .ok ⟨0, crvO1.stdout, crvO1.emitted, crvO2.chanAfter⟩ ∧
    crvO2.chanAfter.sent = crvChan.sent ++ ["ls".toList ++ ['\n'], echoCmd ++ ['\n']] :=
  command_and_retval_spec crvChan "TBOT->".toList "ls".toList false crvO1 crvO2 0
    (by decide) (by decide) (by decide)

/-! ### Claims C2 and C10: the termination condition -/

theorem matches_cat_snd {r1 r2 : RE} {w : Str} (h : Matches (.cat r1 r2) w) :
    ∃ w1 w2, w = w1 ++ w2 ∧ Matches r1 w1 ∧ Matches r2 w2 := by
  cases h with
  | catM h1 h2 => exact ⟨_, _, rfl, h1, h2⟩

theorem matches_chr2 {c1 c2 : Char} {w : Str}
    (h : Matches (.cat (.chr c1) (.chr c2)) w) : w = [c1, c2] := by
  cases h with
  | catM h1 h2 =>
    cases h1
    cases h2
    rfl

/-- Every word the demonstration pattern accepts ends in "$ ". -/
theorem demoPat_ends (t : Str) (h : Matches demoPat t) :
    ∃ u, t = u ++ ['$', ' '] := by
  simp only [demoPat] at h
  obtain ⟨a, b, hab, _, h2⟩ := matches_cat_snd h
  obtain ⟨c, d, hcd, _, h4⟩ := matches_cat_snd h2
  obtain ⟨e, f, hef, _, h6⟩ := matches_cat_snd h4
  obtain ⟨g, i, hgi, _, h8⟩ := matches_cat_snd h6
  have hi : i = ['$', ' '] := matches_chr2 h8
  subst hab hcd hef hgi hi
  exact ⟨a ++ (c ++ (e ++ g)), by simp⟩

/-- C2: the read loop's termination test.  In literal mode it fires
exactly when the buffer's tail equals the prompt (Python
`buf[-len(prompt):] == prompt`); in pattern mode it is the end-anchored
search.  On the spec's scenario pattern `"root@[a-z]+:.*\$ "`, every
buffer ending in `"root@board:/ $ "` fires the test and no buffer ending
in `"root@board:/ "` does.  The last two conjuncts tie the test to the
loop: an iteration whose grown buffer passes the test returns it, and one
that fails it (on an open channel) continues reading. -/
theorem read_to_prompt_termination (prompt : Str) (pat : RE) (buf : Str) :
    (promptMatched prompt false pat buf = true ↔
      pyTailSlice buf prompt.length = prompt)
    ∧ promptMatched prompt true pat buf = pySearchEnd pat buf
    ∧ (∀ pre : Str,
        promptMatched prompt true demoPat (pre ++ "root@board:/ $ ".toList) = true)
    ∧ (∀ pre : Str,
        promptMatched prompt true demoPat (pre ++ "root@board:/ ".toList) = false)
    ∧ (∀ (isPat useSink : Bool) (sent : List Str) (step : RecvStep)
        (rest : List RecvStep) (b : Str) (ln : Nat) (em : List Str),
        promptMatched prompt isPat pat (b ++ normalizeChunk step.data) = true →
        ∃ em2, rtpLoop prompt isPat pat useSink sent (step :: rest) b ln em =
          some ⟨b ++ normalizeChunk step.data, em2, ⟨step.exitReady, rest, sent⟩⟩)
    ∧ (∀ (isPat useSink : Bool) (sent : List Str) (step : RecvStep)
        (rest : List RecvStep) (b : Str) (ln : Nat) (em : List Str),
        promptMatched prompt isPat pat (b ++ normalizeChunk step.data) = false →
        ¬(normalizeChunk step.data = [] ∧ step.exitReady = true) →
        rtpLoop prompt isPat pat useSink sent (step :: rest) b ln em =
          rtpLoop prompt isPat pat useSink sent rest (b ++ normalizeChunk step.data)
            (if useSink then drainLines (b ++ normalizeChunk step.data) ln em
             else (ln, em)).1
            (if useSink then drainLines (b ++ normalizeChunk step.data) ln em
             else (ln, em)).2) := by
  refine ⟨?_, rfl, ?_, ?_, ?_, ?_⟩
  · simp [promptMatched]
  · intro pre
    show pySearchEnd demoPat (pre ++ "root@board:/ $ ".toList) = true
    unfold pySearchEnd
    have h1 : rmatch demoPat ("root@board:/ $ ".toList) = true := by decide
    have h2 : "root@board:/ $ ".toList ∈ (pre ++ "root@board:/ $ ".toList).tails :=
      (List.mem_tails _ _).mpr ⟨pre, rfl⟩
    rw [List.any_eq_true.mpr ⟨_, h2, h1⟩]
    simp
  · intro pre
    show pySearchEnd demoPat (pre ++ "root@board:/ ".toList) = false
    unfold pySearchEnd
    have hsplit : "root@board:/ ".toList = "root@board:/".toList ++ [' '] := by decide
    have hlast : (pre ++ "root@board:/ ".toList).getLast? = some ' ' := by
      rw [hsplit, ← List.append_assoc]
      exact List.getLast?_concat _
    have hany : (pre ++ "root@board:/ ".toList).tails.any
        (fun t => rmatch demoPat t) = false := by
      cases hx : (pre ++ "root@board:/ ".toList).tails.any
          (fun t => rmatch demoPat t) with
      | false => rfl
      | true =>
        exfalso
        obtain ⟨t, ht, hrm⟩ := List.any_eq_true.mp hx
        obtain ⟨u, hu⟩ := demoPat_ends t (rmatch_matches t demoPat hrm)
        obtain ⟨v, hv⟩ := (List.mem_tails _ _).mp ht
        rw [hu] at hv
        have h1 : (v ++ u ++ ['$']) ++ [' '] = (pre ++ "root@board:/".toList) ++ [' '] := by
          calc (v ++ u ++ ['$']) ++ [' '] = v ++ (u ++ ['$', ' ']) := by simp
          _ = pre ++ "root@board:/ ".toList := hv
          _ = (pre ++ "root@board:/".toList) ++ [' '] := by rw [hsplit, ← List.append_assoc]
        have h2 : v ++ u ++ ['$'] = pre ++ "root@board:/".toList := by
          have := congrArg List.dropLast h1
          simpa [List.dropLast_concat] using this
        have h3 : (some '$' : Option Char) = some '/' := by
          have e1 : (v ++ u ++ ['$']).getLast? = some '$' := List.getLast?_concat _
          have e2 : (pre ++ "root@board:/".toList).getLast? = some '/' := by
            have hsp2 : pre ++ "root@board:/".toList =
                (pre ++ "root@board:".toList) ++ ['/'] := by
              rw [List.append_assoc]
              congr 1
            rw [hsp2]
            exact List.getLast?_concat _
          rw [← e1, h2, e2]
        exact absurd h3 (by decide)
    rw [hany, hlast]
    simp
  · intro isPat useSink sent step rest b ln em hm
    rcases hres : rtpLoop prompt isPat pat useSink sent (step :: rest) b ln em
      with _ | ⟨obuf, oem, och⟩
    · exact absurd hres (by simp [rtpLoop, hm])
    · have h2 := hres
      simp only [rtpLoop, hm, if_true] at h2
      injection h2 with h3
      injection h3 with hbuf hem hch
      refine ⟨oem, ?_⟩
      rw [← hbuf, ← hch]
  · intro isPat useSink sent step rest b ln em hm hne
    simp only [rtpLoop, hm, Bool.false_eq_true, if_false]
    rw [if_neg hne]

/-- Witness for C2: literal tail equality fires the test; the pattern
fires on a buffer ending in `"root@board:/ $ "`, not on one ending in
`"root@board:/ "`; a matching iteration returns its buffer. -/
theorem read_to_prompt_termination_w :
    promptMatched "TBOT->".toList false .eps "ls\nxTBOT->".toList = true ∧
    promptMatched [] true demoPat ("abc\n".toList ++ "root@board:/ $ ".toList) = true ∧
    promptMatched [] true demoPat ("abc\n".toList ++ "root@board:/ ".toList) = false ∧
    (∃ em2, rtpLoop "TBOT->".toList false .eps false [] [⟨"xTBOT->".toList, false⟩]
        [] 0 [] = some ⟨[] ++ normalizeChunk "xTBOT->".toList, em2, ⟨false, [], []⟩⟩) := by
  refine ⟨?_, ?_, ?_, ?_⟩
  · exact (read_to_prompt_termination "TBOT->".toList .eps "ls\nxTBOT->".toList).1.mpr
      (by decide)
  · exact (read_to_prompt_termination [] demoPat []).2.2.1 "abc\n".toList
  · exact (read_to_prompt_termination [] demoPat []).2.2.2.1 "abc\n".toList
  · exact (read_to_prompt_termination "TBOT->".toList .eps []).2.2.2.2.1 false false []
      ⟨"xTBOT->".toList, false⟩ [] [] 0 [] (by decide)

/-- C10: in pattern mode the termination check is strictly weaker than a
match at the true end of the buffer.  A match ending at the true end
always fires the check, and the buffer `"root@board:/ $ \n"` — whose final
character is a newline, so no suffix matches the pattern at the true end —
still fires it, because Python's `$` also matches just before a trailing
newline. -/
theorem pattern_dollar_newline :
    (∀ (pat : RE) (buf : Str), buf.tails.any (fun t => rmatch pat t) = true →
      promptMatched [] true pat buf = true)
    ∧ (promptMatched [] true demoPat "root@board:/ $ \n".toList = true ∧
       "root@board:/ $ \n".toList.getLast? = some '\n' ∧
       "root@board:/ $ \n".toList.tails.any (fun t => rmatch demoPat t) = false) := by
  constructor
  · intro pat buf h
    show pySearchEnd pat buf = true
    unfold pySearchEnd
    rw [h]
    simp
  · exact ⟨by decide, by decide, by decide⟩

/-- Witness for C10's general direction at a concrete buffer. -/
theorem pattern_dollar_newline_w :
    promptMatched [] true demoPat "root@board:/ $ ".toList = true :=
  pattern_dollar_newline.1 demoPat "root@board:/ $ ".toList (by decide)

/-! ### Claim C7: structure of the '\n'-separated segments -/

theorem splitNL_ne_nil (s : Str) : splitNL s ≠ [] := by
  cases s with
  | nil => simp [splitNL]
  | cons c rest =>
    simp only [splitNL]
    by_cases hc : c = '\n'
    · rw [if_pos hc]; simp
    · rw [if_neg hc]
      cases h : splitNL rest <;> simp

theorem foldl_pick_init_indep (L : List Str) (hL : L ≠ []) (a b : Str) :
    L.foldl (fun _ x => x) a = L.foldl (fun _ x => x) b := by
  cases L with
  | nil => exact absurd rfl hL
  | cons x t => rfl

theorem foldl_pick_last (L : List Str) (x : Str) :
    ∀ a, (L ++ [x]).foldl (fun _ y => y) a = x := by
  induction L with
  | nil => intro a; rfl
  | cons b t ih => intro a; exact ih b

theorem splitNL_no_nl (s : Str) (h : '\n' ∉ s) : splitNL s = [s] := by
  induction s with
  | nil => rfl
  | cons c rest ih =>
    have hc : c ≠ '\n' := fun hc => h (hc ▸ List.mem_cons_self _ _)
    have hr : '\n' ∉ rest := fun hm => h (List.mem_cons_of_mem _ hm)
    simp only [splitNL]
    rw [if_neg hc, ih hr]

theorem lastSeg_no_nl_eq (s : Str) (h : '\n' ∉ s) : lastSeg s = s := by
  unfold lastSeg
  rw [splitNL_no_nl s h]
  rfl

theorem splitNL_cons_nl (line : Str) (h : '\n' ∉ line) (t2 : Str) :
    splitNL (line ++ '\n' :: t2) = line :: splitNL t2 := by
  induction line with
  | nil =>
    show splitNL ('\n' :: t2) = [] :: splitNL t2
    simp [splitNL]
  | cons c rest ih =>
    have hc : c ≠ '\n' := fun hc => h (hc ▸ List.mem_cons_self _ _)
    have hr : '\n' ∉ rest := fun hm => h (List.mem_cons_of_mem _ hm)
    simp only [List.cons_append, splitNL, List.append_eq]
    rw [if_neg hc, ih hr]

theorem lastSeg_app_nl (line : Str) (h : '\n' ∉ line) (t2 : Str) :
    lastSeg (line ++ '\n' :: t2) = lastSeg t2 := by
  unfold lastSeg
  rw [splitNL_cons_nl line h t2]
  show (splitNL t2).foldl _ line = _
  exact foldl_pick_init_indep _ (splitNL_ne_nil t2) line []

theorem takeWhile_no_nl (t : Str) : '\n' ∉ t.takeWhile (fun c => c ≠ '\n') := by
  intro h
  have := List.mem_takeWhile_imp h
  simp at this

theorem takeWhile_split (t : Str) (h : '\n' ∈ t) :
    t = t.takeWhile (fun c => c ≠ '\n') ++
      '\n' :: t.drop ((t.takeWhile (fun c => c ≠ '\n')).length + 1) := by
  induction t with
  | nil => cases h
  | cons c rest ih =>
    by_cases hc : c = '\n'
    · subst hc
      simp [List.takeWhile]
    · have hr : '\n' ∈ rest := by
        rcases List.mem_cons.mp h with h1 | h1
        · exact absurd h1.symm hc
        · exact h1
      have hd : (decide (c ≠ '\n')) = true := by simp [hc]
      simp only [List.takeWhile_cons, hd, if_true, List.length_cons, List.cons_append,
        List.drop_succ_cons]
      exact congrArg (c :: ·) (ih hr)

theorem splitNL_no_nl_append (u : Str) (h : '\n' ∉ u) (v : Str) :
    splitNL (u ++ v) = (u ++ (splitNL v).headI) :: (splitNL v).tail := by
  induction u with
  | nil =>
    obtain ⟨h0, t0, hv⟩ := List.exists_cons_of_ne_nil (splitNL_ne_nil v)
    rw [List.nil_append, hv]
    simp
  | cons c rest ih =>
    have hc : c ≠ '\n' := fun hc => h (hc ▸ List.mem_cons_self _ _)
    have hr : '\n' ∉ rest := fun hm => h (List.mem_cons_of_mem _ hm)
    simp only [List.cons_append, splitNL, List.append_eq]
    rw [if_neg hc, ih hr]

theorem splitNL_append (u v : Str) :
    splitNL (u ++ v) =
      (splitNL u).dropLast ++ (lastSeg u ++ (splitNL v).headI) :: (splitNL v).tail := by
  have H : ∀ (n : Nat) (u v : Str), u.length ≤ n →
      splitNL (u ++ v) =
        (splitNL u).dropLast ++ (lastSeg u ++ (splitNL v).headI) :: (splitNL v).tail := by
    intro n
    induction n with
    | zero =>
      intro u v hu
      have hnil : u = [] := List.eq_nil_of_length_eq_zero (Nat.le_zero.mp hu)
      subst hnil
      rw [splitNL_no_nl_append [] (by simp) v]
      rfl
    | succ n ih =>
      intro u v hu
      by_cases hnl : '\n' ∈ u
      · have hsplit := takeWhile_split u hnl
        have hlnl : '\n' ∉ u.takeWhile (fun c => c ≠ '\n') := takeWhile_no_nl u
        have hne : u ≠ [] := by
          intro hc
          subst hc
          cases hnl
        have hlen : (u.drop ((u.takeWhile (fun c => c ≠ '\n')).length + 1)).length ≤ n := by
          rw [List.length_drop]
          have : 1 ≤ u.length := by
            cases u with
            | nil => exact absurd rfl hne
            | cons a b => simp
          omega
        calc splitNL (u ++ v)
            = splitNL (u.takeWhile (fun c => c ≠ '\n') ++
                '\n' :: (u.drop ((u.takeWhile (fun c => c ≠ '\n')).length + 1) ++ v)) := by
              conv_lhs => rw [hsplit]
              simp
          _ = u.takeWhile (fun c => c ≠ '\n') ::
                splitNL (u.drop ((u.takeWhile (fun c => c ≠ '\n')).length + 1) ++ v) :=
              splitNL_cons_nl _ hlnl _
          _ = u.takeWhile (fun c => c ≠ '\n') ::
                ((splitNL (u.drop ((u.takeWhile (fun c => c ≠ '\n')).length + 1))).dropLast ++
                  (lastSeg (u.drop ((u.takeWhile (fun c => c ≠ '\n')).length + 1)) ++
                    (splitNL v).headI) :: (splitNL v).tail) := by
              rw [ih _ v hlen]
          _ = (splitNL u).dropLast ++
                (lastSeg u ++ (splitNL v).headI) :: (splitNL v).tail := by
              conv_rhs => rw [hsplit]
              rw [splitNL_cons_nl _ hlnl, lastSeg_app_nl _ hlnl,
                List.dropLast_cons_of_ne_nil (splitNL_ne_nil _)]
              simp
      · rw [splitNL_no_nl_append u hnl v, splitNL_no_nl u hnl, lastSeg_no_nl_eq u hnl]
        rfl
  exact H u.length u v (Nat.le_refl _)

theorem lastSeg_no_nl (s : Str) : '\n' ∉ lastSeg s := by
  have H : ∀ (n : Nat) (s : Str), s.length ≤ n → '\n' ∉ lastSeg s := by
    intro n
    induction n with
    | zero =>
      intro s hs
      have hnil : s = [] := List.eq_nil_of_length_eq_zero (Nat.le_zero.mp hs)
      subst hnil
      simp [lastSeg, splitNL]
    | succ n ih =>
      intro s hs
      by_cases hnl : '\n' ∈ s
      · have hsplit := takeWhile_split s hnl
        have hlnl : '\n' ∉ s.takeWhile (fun c => c ≠ '\n') := takeWhile_no_nl s
        have hne : s ≠ [] := by
          intro hc; subst hc; cases hnl
        have hlen : (s.drop ((s.takeWhile (fun c => c ≠ '\n')).length + 1)).length ≤ n := by
          rw [List.length_drop]
          have : 1 ≤ s.length := by
            cases s with
            | nil => exact absurd rfl hne
            | cons a b => simp
          omega
        have hlast : lastSeg s = lastSeg (s.drop ((s.takeWhile (fun c => c ≠ '\n')).length + 1)) := by
          conv_lhs => rw [hsplit]
          exact lastSeg_app_nl _ hlnl _
        rw [hlast]
        exact ih _ hlen
      · rw [lastSeg_no_nl_eq s hnl]
        exact hnl
  exact H s.length s (Nat.le_refl _)

theorem lastSeg_len_le (s : Str) : (lastSeg s).length ≤ s.length := by
  have H : ∀ (n : Nat) (s : Str), s.length ≤ n → (lastSeg s).length ≤ s.length := by
    intro n
    induction n with
    | zero =>
      intro s hs
      have hnil : s = [] := List.eq_nil_of_length_eq_zero (Nat.le_zero.mp hs)
      subst hnil
      simp [lastSeg, splitNL]
    | succ n ih =>
      intro s hs
      by_cases hnl : '\n' ∈ s
      · have hsplit := takeWhile_split s hnl
        have hne : s ≠ [] := by
          intro hc; subst hc; cases hnl
        have hlen : (s.drop ((s.takeWhile (fun c => c ≠ '\n')).length + 1)).length ≤ n := by
          rw [List.length_drop]
          have : 1 ≤ s.length := by
            cases s with
            | nil => exact absurd rfl hne
            | cons a b => simp
          omega
        have h2 := ih _ hlen
        conv_lhs => rw [hsplit]
        rw [lastSeg_app_nl _ (takeWhile_no_nl s)]
        calc (lastSeg (s.drop ((s.takeWhile (fun c => c ≠ '\n')).length + 1))).length
            ≤ (s.drop ((s.takeWhile (fun c => c ≠ '\n')).length + 1)).length := h2
          _ ≤ s.length := by rw [List.length_drop]; omega
      · rw [lastSeg_no_nl_eq s hnl]
  exact H s.length s (Nat.le_refl _)

theorem lastSeg_drop_self (s : Str) :
    s.drop (s.length - (lastSeg s).length) = lastSeg s := by
  have H : ∀ (n : Nat) (s : Str), s.length ≤ n →
      s.drop (s.length - (lastSeg s).length) = lastSeg s := by
    intro n
    induction n with
    | zero =>
      intro s hs
      have hnil : s = [] := List.eq_nil_of_length_eq_zero (Nat.le_zero.mp hs)
      subst hnil
      rfl
    | succ n ih =>
      intro s hs
      by_cases hnl : '\n' ∈ s
      · have hsplit := takeWhile_split s hnl
        have hlnl : '\n' ∉ s.takeWhile (fun c => c ≠ '\n') := takeWhile_no_nl s
        have hne : s ≠ [] := by
          intro hc; subst hc; cases hnl
        have hpos : 1 ≤ s.length := by
          cases s with
          | nil => exact absurd rfl hne
          | cons a b => simp
        set L := s.takeWhile (fun c => c ≠ '\n') with hL
        set u2 := s.drop (L.length + 1) with hu2
        have hlen : u2.length ≤ n := by
          rw [hu2, List.length_drop]
          omega
        have hlast : lastSeg s = lastSeg u2 := by
          conv_lhs => rw [hsplit]
          exact lastSeg_app_nl _ hlnl _
        have hlst : (lastSeg u2).length ≤ u2.length := lastSeg_len_le u2
        have hu2len : u2.length = s.length - (L.length + 1) := by
          rw [hu2, List.length_drop]
        have hlw : L.length < s.length := takeWhile_length_lt s hnl
        rw [hlast]
        have hgoal : s.drop (s.length - (lastSeg u2).length) =
            (L ++ '\n' :: u2).drop ((L ++ '\n' :: u2).length - (lastSeg u2).length) := by
          conv_lhs => rw [hsplit]
        rw [hgoal, List.drop_append_eq_append_drop]
        have hlen2 : (L ++ '\n' :: u2).length = L.length + 1 + u2.length := by
          simp only [List.length_append, List.length_cons]
          omega
        have hk1 : (L ++ '\n' :: u2).length - (lastSeg u2).length ≥ L.length := by
          omega
        rw [drop_eq_nil_of_le_len hk1, List.nil_append]
        have harith : (L ++ '\n' :: u2).length - (lastSeg u2).length - L.length =
            (u2.length - (lastSeg u2).length) + 1 := by
          omega
        rw [harith, List.drop_succ_cons]
        exact ih _ hlen
      · rw [lastSeg_no_nl_eq s hnl]
        simp
  exact H s.length s (Nat.le_refl _)

theorem splitNL_chunk (buf data : Str) :
    splitNL (buf ++ data) = (splitNL buf).dropLast ++ splitNL (lastSeg buf ++ data) := by
  rw [splitNL_append buf data, splitNL_append (lastSeg buf) data,
    splitNL_no_nl (lastSeg buf) (lastSeg_no_nl _),
    lastSeg_no_nl_eq (lastSeg buf) (lastSeg_no_nl _)]
  rfl

theorem lastSeg_chunk (buf data : Str) :
    lastSeg (buf ++ data) = lastSeg (lastSeg buf ++ data) := by
  show (splitNL (buf ++ data)).foldl (fun _ x => x) [] = _
  rw [splitNL_chunk, List.foldl_append]
  exact foldl_pick_init_indep _ (splitNL_ne_nil _) _ _

theorem lastSeg_append_no_nl (a v : Str) (h : '\n' ∉ v) :
    lastSeg (a ++ v) = lastSeg a ++ v := by
  show (splitNL (a ++ v)).foldl (fun _ x => x) [] = _
  rw [splitNL_append a v, splitNL_no_nl v h]
  show ((splitNL a).dropLast ++ [lastSeg a ++ v]).foldl (fun _ y => y) [] = _
  exact foldl_pick_last _ _ []

/-- What the drain loop computes, stated over the tail `t = buf.drop ln`:
the new position is just past the last newline, and the emitted lines are
the '\n'-terminated segments of the tail — all of them when `ln ≠ 0`,
all but the first when `ln = 0` (the echoed-command line is skipped). -/
theorem drain_spec :
    ∀ (k : Nat) (t buf : Str) (ln : Nat) (em : List Str),
      t.length ≤ k → buf.drop ln = t → ln ≤ buf.length →
      drainLines buf ln em =
        (buf.length - (lastSeg t).length,
         em ++ (if ln = 0 then ((splitNL t).dropLast).drop 1
                else (splitNL t).dropLast)) := by
  intro k
  induction k with
  | zero =>
    intro t buf ln em h1 ht h2
    have hnil : t = [] := List.eq_nil_of_length_eq_zero (Nat.le_zero.mp h1)
    subst hnil
    have hln : ln = buf.length := by
      have := congrArg List.length ht
      rw [List.length_drop] at this
      omega
    rw [drainLines_eq, ht]
    simp [splitNL, lastSeg, hln]
  | succ k ih =>
    intro t buf ln em h1 ht h2
    by_cases hnl : '\n' ∈ t
    · rw [drainLines_eq, ht, if_pos hnl]
      have hlnl := takeWhile_no_nl t
      have hlw : (t.takeWhile (fun c => c ≠ '\n')).length < t.length :=
        takeWhile_length_lt t hnl
      have htlen : t.length = buf.length - ln := by
        rw [← ht, List.length_drop]
      have hdrop : buf.drop (ln + (t.takeWhile (fun c => c ≠ '\n')).length + 1) =
          t.drop ((t.takeWhile (fun c => c ≠ '\n')).length + 1) := by
        rw [← ht, List.drop_drop]
        congr 1
      have hlen' : (t.drop ((t.takeWhile (fun c => c ≠ '\n')).length + 1)).length ≤ k := by
        rw [List.length_drop]
        omega
      have hle' : ln + (t.takeWhile (fun c => c ≠ '\n')).length + 1 ≤ buf.length := by
        omega
      rw [ih _ buf _ _ hlen' hdrop hle']
      have hsplit := takeWhile_split t hnl
      have hlast : lastSeg t = lastSeg (t.drop ((t.takeWhile (fun c => c ≠ '\n')).length + 1)) := by
        conv_lhs => rw [hsplit]
        exact lastSeg_app_nl _ hlnl _
      have hsp : splitNL t = t.takeWhile (fun c => c ≠ '\n') ::
          splitNL (t.drop ((t.takeWhile (fun c => c ≠ '\n')).length + 1)) := by
        conv_lhs => rw [hsplit]
        exact splitNL_cons_nl _ hlnl _
      have hdl : (splitNL t).dropLast = t.takeWhile (fun c => c ≠ '\n') ::
          (splitNL (t.drop ((t.takeWhile (fun c => c ≠ '\n')).length + 1))).dropLast := by
        rw [hsp]
        exact List.dropLast_cons_of_ne_nil (splitNL_ne_nil _)
      congr 1
      · rw [← hlast]
      · rw [hdl]
        have hnz : ¬(ln + (t.takeWhile (fun c => c ≠ '\n')).length + 1 = 0) := by omega
        rw [if_neg hnz]
        by_cases h0 : ln = 0
        · rw [if_pos h0, if_neg (by omega : ¬(ln ≠ 0))]
          simp
        · rw [if_neg h0, if_pos h0]
          simp
    · rw [drainLines_eq, ht, if_neg hnl]
      have htlen : t.length = buf.length - ln := by
        rw [← ht, List.length_drop]
      rw [splitNL_no_nl t hnl, lastSeg_no_nl_eq t hnl]
      have hln : ln = buf.length - t.length := by omega
      simp [hln]

/-- Effect of one chunk on the drain state, starting from the invariant. -/
theorem rtp_step_inv (buf : Str) (ln : Nat) (em : List Str) (D : Str)
    (hln : ln = buf.length - (lastSeg buf).length)
    (hem : em = ((splitNL buf).dropLast).drop 1) :
    drainLines (buf ++ D) ln em =
      ((buf ++ D).length - (lastSeg (buf ++ D)).length,
       ((splitNL (buf ++ D)).dropLast).drop 1) := by
  have hlsle := lastSeg_len_le buf
  have hle : ln ≤ buf.length := by omega
  have hle2 : ln ≤ (buf ++ D).length := by
    rw [List.length_append]
    omega
  have hdrop : (buf ++ D).drop ln = lastSeg buf ++ D := by
    rw [List.drop_append_eq_append_drop]
    have h0 : ln - buf.length = 0 := by omega
    rw [h0, List.drop_zero]
    congr 1
    rw [hln]
    exact lastSeg_drop_self buf
  rw [drain_spec (lastSeg buf ++ D).length (lastSeg buf ++ D) (buf ++ D) ln em
    (Nat.le_refl _) hdrop hle2]
  have hlseg : lastSeg (lastSeg buf ++ D) = lastSeg (buf ++ D) :=
    (lastSeg_chunk buf D).symm
  congr 1
  · rw [hlseg]
  · rw [splitNL_chunk buf D]
    by_cases h0 : ln = 0
    · have hbuf : lastSeg buf = buf := by
        have h3 := lastSeg_drop_self buf
        rw [← hln, h0, List.drop_zero] at h3
        exact h3.symm
      have hnonl : '\n' ∉ buf := hbuf ▸ lastSeg_no_nl buf
      have hsp : splitNL buf = [buf] := splitNL_no_nl buf hnonl
      rw [if_pos h0, hem, hsp]
      simp
    · rw [if_neg h0, hem]
      have hlt : (lastSeg buf).length < buf.length := by omega
      have hnl : '\n' ∈ buf := by
        by_contra hc
        rw [lastSeg_no_nl_eq buf hc] at hlt
        omega
      have hne : (splitNL buf).dropLast ≠ [] := by
        have hsplit := takeWhile_split buf hnl
        have hsp : splitNL buf = buf.takeWhile (fun c => c ≠ '\n') ::
            splitNL (buf.drop ((buf.takeWhile (fun c => c ≠ '\n')).length + 1)) := by
          conv_lhs => rw [hsplit]
          exact splitNL_cons_nl _ (takeWhile_no_nl buf) _
        rw [hsp, List.dropLast_cons_of_ne_nil (splitNL_ne_nil _)]
        simp
      rw [List.dropLast_append_of_ne_nil _ (splitNL_ne_nil _)]
      obtain ⟨a0, A', hA⟩ := List.exists_cons_of_ne_nil hne
      rw [hA]
      simp

/-- The final flush of the read loop equals the unterminated trailing
content with the trailing prompt excluded, when the buffer ends in the
('\n'-free, non-empty) prompt. -/
theorem rtp_flush (prompt : Str) (hp : prompt ≠ []) (hnl : '\n' ∉ prompt)
    (buf1 : Str) (hm : pyTailSlice buf1 prompt.length = prompt) :
    pySliceToNeg buf1 (buf1.length - (lastSeg buf1).length) prompt.length =
      (lastSeg buf1).take ((lastSeg buf1).length - prompt.length) := by
  have hp0 : prompt.length ≠ 0 := fun hc => hp (List.eq_nil_of_length_eq_zero hc)
  unfold pyTailSlice at hm
  rw [if_neg hp0] at hm
  have hple : prompt.length ≤ buf1.length := by
    by_contra hc
    push_neg at hc
    have h0 : buf1.length - prompt.length = 0 := by omega
    rw [h0, List.drop_zero] at hm
    rw [hm] at hc
    omega
  have hA : buf1.take (buf1.length - prompt.length) ++ prompt = buf1 := by
    conv_rhs => rw [← List.take_append_drop (buf1.length - prompt.length) buf1]
    rw [hm]
  set A := buf1.take (buf1.length - prompt.length) with hAdef
  have hAlen : A.length = buf1.length - prompt.length := by
    rw [hAdef, List.length_take]
    omega
  have hlseg : lastSeg buf1 = lastSeg A ++ prompt := by
    rw [← hA]
    exact lastSeg_append_no_nl A prompt hnl
  have hlsA : (lastSeg A).length ≤ A.length := lastSeg_len_le A
  unfold pySliceToNeg
  rw [if_neg hp0, ← hAdef, hlseg]
  have e1 : buf1.length - (lastSeg A ++ prompt).length = A.length - (lastSeg A).length := by
    rw [List.length_append]
    omega
  have e2 : (lastSeg A ++ prompt).length - prompt.length = (lastSeg A).length := by
    rw [List.length_append]
    omega
  rw [e1, e2, show (lastSeg A ++ prompt).take (lastSeg A).length = lastSeg A from
    List.take_left ..]
  exact lastSeg_drop_self A

/-- Loop invariant for the sink behaviour of `read_to_prompt` in literal
mode: whenever the loop returns, the emitted lines are exactly the
'\n'-terminated segments of the final buffer minus the very first one,
plus — only on prompt-termination — the flush of the unterminated tail
with the prompt excluded. -/
theorem rtpLoop_sink_inv (prompt : Str) (hp : prompt ≠ []) (hnl : '\n' ∉ prompt)
    (sent : List Str) :
    ∀ (steps : List RecvStep) (buf : Str) (ln : Nat) (em : List Str) (out : RtpOut),
      ln = buf.length - (lastSeg buf).length →
      em = ((splitNL buf).dropLast).drop 1 →
      rtpLoop prompt false .eps true sent steps buf ln em = some out →
      ((promptMatched prompt false .eps out.buf = true →
        out.emitted = ((splitNL out.buf).dropLast).drop 1 ++ flushOf prompt out.buf)
      ∧ (promptMatched prompt false .eps out.buf = false →
        out.emitted = ((splitNL out.buf).dropLast).drop 1)) := by
  intro steps
  induction steps with
  | nil =>
    intro buf ln em out _ _ h
    exact absurd h (by simp [rtpLoop])
  | cons step rest ih =>
    intro buf ln em out hln hem h
    have hd := rtp_step_inv buf ln em (normalizeChunk step.data) hln hem
    simp only [rtpLoop, eq_self_iff_true, true_and, if_true] at h
    rw [hd] at h
    by_cases hm : promptMatched prompt false RE.eps (buf ++ normalizeChunk step.data) = true
    · rw [if_pos hm] at h
      have hdrop2 : (buf ++ normalizeChunk step.data).drop
          ((buf ++ normalizeChunk step.data).length -
            (lastSeg (buf ++ normalizeChunk step.data)).length) =
          lastSeg (buf ++ normalizeChunk step.data) := lastSeg_drop_self _
      have hccond : '\n' ∉ (buf ++ normalizeChunk step.data).drop
          ((buf ++ normalizeChunk step.data).length -
            (lastSeg (buf ++ normalizeChunk step.data)).length) := by
        rw [hdrop2]
        exact lastSeg_no_nl _
      rw [if_pos hccond] at h
      have hmt : pyTailSlice (buf ++ normalizeChunk step.data) prompt.length = prompt :=
        of_decide_eq_true hm
      rw [rtp_flush prompt hp hnl (buf ++ normalizeChunk step.data) hmt] at h
      injection h with h3
      constructor
      · intro _
        rw [← h3]
        show (if (lastSeg (buf ++ normalizeChunk step.data)).take
              ((lastSeg (buf ++ normalizeChunk step.data)).length - prompt.length) ≠ []
            then ((splitNL (buf ++ normalizeChunk step.data)).dropLast).drop 1 ++
              [(lastSeg (buf ++ normalizeChunk step.data)).take
                ((lastSeg (buf ++ normalizeChunk step.data)).length - prompt.length)]
            else ((splitNL (buf ++ normalizeChunk step.data)).dropLast).drop 1) =
          ((splitNL (buf ++ normalizeChunk step.data)).dropLast).drop 1 ++
            flushOf prompt (buf ++ normalizeChunk step.data)
        unfold flushOf
        by_cases hf : (lastSeg (buf ++ normalizeChunk step.data)).take
            ((lastSeg (buf ++ normalizeChunk step.data)).length - prompt.length) ≠ []
        · rw [if_pos hf, if_pos hf]
        · rw [if_neg hf, if_neg hf]
          simp
      · intro hc
        have hb : out.buf = buf ++ normalizeChunk step.data := by rw [← h3]
        rw [hb] at hc
        rw [hc] at hm
        cases hm
    · rw [if_neg hm] at h
      by_cases hcl : normalizeChunk step.data = [] ∧ step.exitReady = true
      · rw [if_pos hcl] at h
        injection h with h3
        constructor
        · intro hc
          have hb : out.buf = buf ++ normalizeChunk step.data := by rw [← h3]
          rw [hb] at hc
          exact absurd hc hm
        · intro _
          rw [← h3]
      · rw [if_neg hcl] at h
        exact ih _ _ _ out rfl rfl h

/-- C7: with a sink and a ('\n'-free, non-empty) literal prompt, every
run of `read_to_prompt` emits exactly the completed ('\n'-terminated)
lines of the final buffer, in order, each once, except the very first
line; on prompt-termination the unterminated trailing content with the
trailing prompt excluded is additionally flushed once if non-empty (and
on a closed-channel return nothing more is flushed). -/
theorem read_to_prompt_sink (prompt : Str) (hp : prompt ≠ []) (hnl : '\n' ∉ prompt)
    (ch : Chan) (out : RtpOut)
    (h : read_to_prompt ch prompt true false .eps = some out) :
    (promptMatched prompt false .eps out.buf = true →
      out.emitted = ((splitNL out.buf).dropLast).drop 1 ++ flushOf prompt out.buf)
    ∧ (promptMatched prompt false .eps out.buf = false →
      out.emitted = ((splitNL out.buf).dropLast).drop 1) :=
  rtpLoop_sink_inv prompt hp hnl ch.sent ch.steps [] 0 [] out rfl rfl h

/-- Witness for C7: on the literal-prompt scenario the two completed
lines after the echo line are emitted and the flush is empty. -/
theorem read_to_prompt_sink_w :
    c7Out.emitted = ((splitNL c7Out.buf).dropLast).drop 1 ++
      flushOf "TBOT->".toList c7Out.buf :=
  (read_to_prompt_sink "TBOT->".toList (by decide) (by decide)
    ⟨false, wChanA.steps, []⟩ c7Out (by decide)).1 (by decide)

end Tbot
